import Mathlib

/-!
Verification of the `internal/semver` package of the goctor repository.

The Go source is shallowly embedded below: each Go function becomes a Lean
definition of the same name, working on `Nat` for Go `int` values produced by
`strconv.Atoi` (which are non-negative here and bounded by the 64-bit range,
modelled explicitly in `Atoi`), on `String` for Go strings, and on
`Except`/`Option` for fallible Go functions.  Regular-expression matching is
embedded as a deterministic functional parser: both regexes of the package are
anchored at both ends and their capture groups have pairwise-incompatible
follow sets, so Go's (RE2) leftmost-first greedy submatch semantics admit
exactly one successful decomposition, which the functional parser computes.
-/

/-- Regex class `\d`, i.e. ASCII `0`-`9`. -/
def isDigitChar (c : Char) : Bool := 48 ≤ c.toNat && c.toNat ≤ 57

/-- Regex class `[0-9A-Za-z\-\.]` used for the prerelease and build groups. -/
def isIdentChar (c : Char) : Bool :=
  (48 ≤ c.toNat && c.toNat ≤ 57) || (65 ≤ c.toNat && c.toNat ≤ 90) ||
    (97 ≤ c.toNat && c.toNat ≤ 122) || c.toNat = 45 || c.toNat = 46

/-- Go `type Version struct`: absent prerelease/build are the empty string,
exactly as in Go. -/
structure Version where
  Major : Nat
  Minor : Nat
  Patch : Nat
  Prerelease : String
  Build : String
deriving DecidableEq

/-- Go `type Operator int` with its `iota` constants; a closed enumeration. -/
inductive Operator where
  | OpEqual
  | OpGreater
  | OpGreaterEqual
  | OpLess
  | OpLessEqual
  | OpTilde
  | OpCaret
  | OpNotEqual
deriving DecidableEq

/-- Go `type Constraint struct`. -/
structure Constraint where
  Operator : Operator
  Version : Version
deriving DecidableEq

/-- Alias for `Version`, needed in `Constraint` method signatures where the
field accessor `Constraint.Version` would otherwise shadow the type name. -/
abbrev VersionT := Version

/-- Go compares strings bytewise; on UTF-8 encoded strings bytewise
lexicographic order coincides with codepoint lexicographic order, which is
what this function computes. -/
def goStringLt : List Char → List Char → Bool
  | [], [] => false
  | [], _ :: _ => true
  | _ :: _, [] => false
  | a :: as, b :: bs =>
    if a.toNat < b.toNat then true
    else if b.toNat < a.toNat then false
    else goStringLt as bs

/-- Go `comparePrerelease`. -/
def comparePrerelease (pre1 pre2 : String) : Int :=
  if pre1 = "" && pre2 = "" then 0
  else if pre1 = "" then 1
  else if pre2 = "" then -1
  else if goStringLt pre1.data pre2.data then -1
  else if goStringLt pre2.data pre1.data then 1
  else 0

/-- Go `func (v Version) Compare(other Version) int`. -/
def Version.Compare (v other : Version) : Int :=
  if v.Major ≠ other.Major then (if v.Major < other.Major then -1 else 1)
  else if v.Minor ≠ other.Minor then (if v.Minor < other.Minor then -1 else 1)
  else if v.Patch ≠ other.Patch then (if v.Patch < other.Patch then -1 else 1)
  else comparePrerelease v.Prerelease other.Prerelease

/-- Go `func (c Constraint) tildeConstraint(version Version) bool`. -/
def Constraint.tildeConstraint (c : Constraint) (version : VersionT) : Bool :=
  if version.Major ≠ c.Version.Major then false
  else if version.Minor ≠ c.Version.Minor then false
  else version.Patch ≥ c.Version.Patch

/-- Go `func (c Constraint) caretConstraint(version Version) bool`. -/
def Constraint.caretConstraint (c : Constraint) (version : VersionT) : Bool :=
  if version.Major ≠ c.Version.Major then false
  else if c.Version.Major = 0 then
    if version.Minor ≠ c.Version.Minor then false
    else if c.Version.Minor = 0 then version.Patch = c.Version.Patch
    else version.Patch ≥ c.Version.Patch
  else if version.Minor > c.Version.Minor then true
  else if version.Minor = c.Version.Minor then version.Patch ≥ c.Version.Patch
  else false

/-- Go `func (c Constraint) IsSatisfiedBy(version Version) bool`.  The Go
`switch` has a `default: return false` arm, unreachable because `Operator` is
a closed enumeration and every constant is listed. -/
def Constraint.IsSatisfiedBy (c : Constraint) (version : VersionT) : Bool :=
  let comparison := version.Compare c.Version
  match c.Operator with
  | .OpEqual => comparison = 0
  | .OpGreater => comparison > 0
  | .OpGreaterEqual => comparison ≥ 0
  | .OpLess => comparison < 0
  | .OpLessEqual => comparison ≤ 0
  | .OpNotEqual => comparison ≠ 0
  | .OpTilde => c.tildeConstraint version
  | .OpCaret => c.caretConstraint version

/-- Go `func SatisfiesAll(version Version, constraints []Constraint) bool`:
the loop returns false at the first unsatisfied constraint, which is exactly
the conjunction computed by `List.all`. -/
def SatisfiesAll (version : Version) (constraints : List Constraint) : Bool :=
  constraints.all (fun c => c.IsSatisfiedBy version)

/-- The five capture groups of `versionRegex`; `none` is a non-participating
group, which Go reports as the empty string (a participating group is never
empty since every group's body requires at least one character). -/
structure VGroups where
  major : List Char
  minor : Option (List Char)
  patch : Option (List Char)
  pre : Option (List Char)
  build : Option (List Char)
deriving DecidableEq

/-- One optional numeric group `(?:\.(\d+))?`: matches (greedily, as RE2
prefers) when a dot followed by at least one digit is next. -/
def optNumGroup (s : List Char) : Option (List Char) × List Char :=
  match s with
  | c :: rest =>
    if c = '.' then
      let ds := rest.takeWhile isDigitChar
      if ds.isEmpty then (none, s) else (some ds, rest.dropWhile isDigitChar)
    else (none, s)
  | [] => (none, [])

/-- One optional tagged group `(?:-([0-9A-Za-z\-\.]+))?` (for `mark = '-'`)
or `(?:\+([0-9A-Za-z\-\.]+))?` (for `mark = '+'`). -/
def optTagGroup (mark : Char) (s : List Char) : Option (List Char) × List Char :=
  match s with
  | c :: rest =>
    if c = mark then
      let t := rest.takeWhile isIdentChar
      if t.isEmpty then (none, s) else (some t, rest.dropWhile isIdentChar)
    else (none, s)
  | [] => (none, [])

/-- Go `versionRegex.FindStringSubmatch`, for the anchored pattern
`^v?(\d+)(?:\.(\d+))?(?:\.(\d+))?(?:-([0-9A-Za-z\-\.]+))?(?:\+([0-9A-Za-z\-\.]+))?$`.
Each optional piece is attempted greedily in order; no alternative
decomposition of a matching input exists because every group's first
character (digit, `.`, `-`, `+`) is excluded from the positions where the
next group could instead continue, so the deterministic parse below returns
a result exactly when the regex matches, with the same submatches. -/
def versionRegexMatch (s : List Char) : Option VGroups :=
  let s1 := if s.head? = some 'v' then s.tail else s
  let major := s1.takeWhile isDigitChar
  if major.isEmpty then none
  else
    let r0 := s1.dropWhile isDigitChar
    let (minor, r1) := optNumGroup r0
    let (patch, r2) := optNumGroup r1
    let (pre, r3) := optTagGroup '-' r2
    let (build, r4) := optTagGroup '+' r3
    if r4.isEmpty then some ⟨major, minor, patch, pre, build⟩ else none

/-- `math.MaxInt64`, the largest value Go's `strconv.Atoi` accepts on a
64-bit platform. -/
def int64Max : Nat := 9223372036854775807

/-- Numeric value of an ASCII digit. -/
def digitVal (c : Char) : Nat := c.toNat - 48

/-- Value of a decimal digit string. -/
def digitsToNat (ds : List Char) : Nat := ds.foldl (fun a c => 10 * a + digitVal c) 0

/-- Go `strconv.Atoi` restricted to the digit-only strings produced by the
regex groups: succeeds with the decimal value unless the value overflows a
signed 64-bit int, in which case Go reports `ErrRange`. -/
def Atoi (ds : List Char) : Option Nat :=
  if digitsToNat ds ≤ int64Max then some (digitsToNat ds) else none

/-- The error values `ParseVersion` can produce. -/
inductive VError where
  | emptyVersion
  | invalidFormat
  | invalidMajor
  | invalidMinor
  | invalidPatch
deriving DecidableEq

/-- Go `func ParseVersion(versionStr string) (Version, error)`, on the
character list of the input. -/
def ParseVersionL (s : List Char) : Except VError Version :=
  if s.isEmpty then .error .emptyVersion
  else
    match versionRegexMatch s with
    | none => .error .invalidFormat
    | some g =>
      match Atoi g.major with
      | none => .error .invalidMajor
      | some major =>
        match (match g.minor with | none => some 0 | some ds => Atoi ds) with
        | none => .error .invalidMinor
        | some minor =>
          match (match g.patch with | none => some 0 | some ds => Atoi ds) with
          | none => .error .invalidPatch
          | some patch =>
            .ok ⟨major, minor, patch, ⟨g.pre.getD []⟩, ⟨g.build.getD []⟩⟩

/-- Go `ParseVersion` on a `String`. -/
def ParseVersion (s : String) : Except VError Version := ParseVersionL s.data

/-- The error values the constraint-parsing functions can produce. -/
inductive CError where
  | emptyConstraint
  | invalidConstraintFormat
  | unknownOperator (tok : String)
  | invalidVersionInConstraint (e : VError)
  | emptyConstraintList
  | failedToParseConstraint (tok : String) (e : CError)
deriving DecidableEq

/-- The alternatives of the operator group of `constraintRegex`, in the order
written in the pattern `(>=|<=|>|<|~|\^|!=)?`.  Note the pattern does not
contain a plain `=` alternative. -/
def tokList : List (List Char) :=
  [['>', '='], ['<', '='], ['>'], ['<'], ['~'], ['^'], ['!', '=']]

/-- The operator alternative RE2 assigns to group 1: the first alternative in
written order that is a prefix of the input and leaves at least one character
for the mandatory `(.+)` group (RE2 alternation prefers earlier alternatives,
and `?` prefers matching; a later state is used only when every earlier one
fails to complete the whole anchored match). -/
def firstTok (s : List Char) : Option (List Char) :=
  tokList.find? (fun t => t.isPrefixOf s && decide (t.length < s.length))

/-- Go `constraintRegex.FindStringSubmatch` for the anchored pattern
`^(>=|<=|>|<|~|\^|!=)?(.+)$`.  RE2's `.` does not match a newline and `$`
is end of text (no multiline flag), so any input containing `'\n'` fails to
match; otherwise group 2 is everything after the chosen operator token and
must be non-empty. -/
def constraintRegexMatch (s : List Char) : Option (List Char × List Char) :=
  if s.contains '\n' || s.isEmpty then none
  else
    match firstTok s with
    | some t => some (t, s.drop t.length)
    | none => some ([], s)

/-- The `switch operatorStr` of Go `ParseConstraint`, including the dead
`case "="` arm (dead because `constraintRegex` can never capture `=` into
group 1) and the `default` arm returning the unknown-operator error. -/
def operatorOf (opStr : List Char) : Option Operator :=
  if opStr = ['>', '='] then some .OpGreaterEqual
  else if opStr = ['>'] then some .OpGreater
  else if opStr = ['<', '='] then some .OpLessEqual
  else if opStr = ['<'] then some .OpLess
  else if opStr = ['~'] then some .OpTilde
  else if opStr = ['^'] then some .OpCaret
  else if opStr = ['!', '='] then some .OpNotEqual
  else if opStr = [] || opStr = ['='] then some .OpEqual
  else none

/-- Go `func ParseConstraint(constraintStr string) (Constraint, error)`, on
the character list of the input. -/
def ParseConstraintL (s : List Char) : Except CError Constraint :=
  if s.isEmpty then .error .emptyConstraint
  else
    match constraintRegexMatch s with
    | none => .error .invalidConstraintFormat
    | some (opStr, verStr) =>
      match operatorOf opStr with
      | none => .error (.unknownOperator ⟨opStr⟩)
      | some op =>
        match ParseVersionL verStr with
        | .error e => .error (.invalidVersionInConstraint e)
        | .ok ver => .ok ⟨op, ver⟩

/-- Go `ParseConstraint` on a `String`. -/
def ParseConstraint (s : String) : Except CError Constraint := ParseConstraintL s.data

/-- Go `unicode.IsSpace`: the Unicode `White_Space` property. -/
def goIsSpace (c : Char) : Bool :=
  (9 ≤ c.toNat && c.toNat ≤ 13) || c.toNat = 32 || c.toNat = 133 ||
    c.toNat = 160 || c.toNat = 5760 || (8192 ≤ c.toNat && c.toNat ≤ 8202) ||
    c.toNat = 8232 || c.toNat = 8233 || c.toNat = 8239 || c.toNat = 8287 ||
    c.toNat = 12288

/-- Go `strings.Fields`: maximal runs of non-space characters.  The fuel
argument (always at least the length of the list) only makes the recursion
structural; it never runs out. -/
def fieldsAux : Nat → List Char → List (List Char)
  | 0, _ => []
  | fuel + 1, s =>
    match s with
    | [] => []
    | c :: cs =>
      if goIsSpace c then fieldsAux fuel cs
      else (c :: cs.takeWhile (fun x => !goIsSpace x)) ::
        fieldsAux fuel (cs.dropWhile (fun x => !goIsSpace x))

/-- Go `strings.Fields` on a character list. -/
def fields (s : List Char) : List (List Char) := fieldsAux (s.length + 1) s

/-- The loop body of Go `ParseConstraints`: parse the tokens left to right,
stopping at (and wrapping) the first failure. -/
def parseConstraintList : List (List Char) → Except CError (List Constraint)
  | [] => .ok []
  | t :: ts =>
    match ParseConstraintL t with
    | .error e => .error (.failedToParseConstraint ⟨t⟩ e)
    | .ok c =>
      match parseConstraintList ts with
      | .error e => .error e
      | .ok cs => .ok (c :: cs)

/-- Go `func ParseConstraints(constraintStr string) ([]Constraint, error)`. -/
def ParseConstraints (s : String) : Except CError (List Constraint) :=
  if s = "" then .error .emptyConstraintList
  else parseConstraintList (fields s.data)

/-- The decimal digit of value `d`. -/
def digitChar (d : Nat) : Char :=
  ['0', '1', '2', '3', '4', '5', '6', '7', '8', '9'].getD d '0'

/-- Decimal rendering (Go `fmt.Sprintf("%d", n)` for non-negative `n`); the
fuel argument only makes the recursion structural and never runs out when
called through `natToDec`. -/
def natToDecAux : Nat → Nat → List Char
  | 0, _ => []
  | fuel + 1, n =>
    if n < 10 then [digitChar n]
    else natToDecAux fuel (n / 10) ++ [digitChar (n % 10)]

/-- Decimal rendering of a natural number. -/
def natToDec (n : Nat) : List Char := natToDecAux (n + 1) n

/-- Go `func (v Version) String() string`:
`fmt.Sprintf("%d.%d.%d", ...)` then `"-" + Prerelease` if non-empty, then
`"+" + Build` if non-empty. -/
def Version.String (v : Version) : String :=
  ⟨natToDec v.Major ++ '.' :: natToDec v.Minor ++ '.' :: natToDec v.Patch ++
    (if v.Prerelease = "" then [] else '-' :: v.Prerelease.data) ++
    (if v.Build = "" then [] else '+' :: v.Build.data)⟩

/-- Whether an `Except` value is a success. -/
def exceptIsOk : Except ε α → Bool
  | .ok _ => true
  | .error _ => false

/-!  Claim-side definitions, written from the spec's words, to be compared
with the embedded code above. -/

/-- Spec comparison rule, from the spec's words: major, then minor, then
patch numerically, first unequal field decides; then a side without a
prerelease is greater, two absent prereleases are equal, two present
prerelease strings are compared by plain lexicographic byte order. -/
def specCompare (a b : Version) : Int :=
  if a.Major < b.Major then -1
  else if b.Major < a.Major then 1
  else if a.Minor < b.Minor then -1
  else if b.Minor < a.Minor then 1
  else if a.Patch < b.Patch then -1
  else if b.Patch < a.Patch then 1
  else if a.Prerelease = "" then (if b.Prerelease = "" then 0 else 1)
  else if b.Prerelease = "" then -1
  else if goStringLt a.Prerelease.data b.Prerelease.data then -1
  else if goStringLt b.Prerelease.data a.Prerelease.data then 1
  else 0

/-- The caret rule exactly as the claim words it: `v.major != b.major` is
unsatisfied; when `b.major == 0`: if `b.minor == 0` require exact patch
equality, else require `v.minor == b.minor` and `v.patch >= b.patch`; when
`b.major > 0`: `v.minor > b.minor`, or `v.minor == b.minor` and
`v.patch >= b.patch`. -/
def claimCaretRule (b v : Version) : Bool :=
  if v.Major ≠ b.Major then false
  else if b.Major = 0 then
    if b.Minor = 0 then v.Patch = b.Patch
    else v.Minor = b.Minor && v.Patch ≥ b.Patch
  else v.Minor > b.Minor || (v.Minor = b.Minor && v.Patch ≥ b.Patch)

/-- The caret rule amended with the minor-equality requirement the code
imposes also when `b.major == 0` and `b.minor == 0`. -/
def amendedCaretRule (b v : Version) : Bool :=
  if v.Major ≠ b.Major then false
  else if b.Major = 0 then
    if b.Minor = 0 then v.Minor = b.Minor && v.Patch = b.Patch
    else v.Minor = b.Minor && v.Patch ≥ b.Patch
  else v.Minor > b.Minor || (v.Minor = b.Minor && v.Patch ≥ b.Patch)

/-- Character class `[0-9A-Za-z-]` of a prerelease segment in the claim's
grammar (no dot). -/
def isSegChar (c : Char) : Bool :=
  (48 ≤ c.toNat && c.toNat ≤ 57) || (65 ≤ c.toNat && c.toNat ≤ 90) ||
    (97 ≤ c.toNat && c.toNat ≤ 122) || c.toNat = 45

/-- One or more dot-separated segments of `[0-9A-Za-z-]+` (the claim's
PRERELEASE shape).  The fuel argument only makes the recursion structural
and never runs out when called through `dotSegmented`. -/
def dotSegmentedAux : Nat → List Char → Bool
  | 0, _ => false
  | fuel + 1, t =>
    let seg := t.takeWhile isSegChar
    if seg.isEmpty then false
    else
      match t.dropWhile isSegChar with
      | [] => true
      | '.' :: rest => dotSegmentedAux fuel rest
      | _ => false

/-- One or more dot-separated segments of `[0-9A-Za-z-]+`. -/
def dotSegmented (t : List Char) : Bool := dotSegmentedAux (t.length + 1) t

/-- The claim's grammar for version strings, as worded:
`["v"] MAJOR ["." MINOR ["." PATCH]] ["-" PRERELEASE] ["+" BUILD]` anchored
end to end, with MAJOR/MINOR/PATCH one or more ASCII digits and PRERELEASE
(and BUILD, which the spec gives the same shape) one or more dot-separated
segments of `[0-9A-Za-z-]+`. -/
def specVersionGrammar (s : List Char) : Bool :=
  let s1 := if s.head? = some 'v' then s.tail else s
  let major := s1.takeWhile isDigitChar
  let r0 := s1.dropWhile isDigitChar
  let (_, r1) := optNumGroup r0
  let (_, r2) := optNumGroup r1
  let (pre, r3) := optTagGroup '-' r2
  let (build, r4) := optTagGroup '+' r3
  !major.isEmpty && r4.isEmpty && pre.elim true dotSegmented &&
    build.elim true dotSegmented

/-- The amended grammar: as the code's regex has it, PRERELEASE and BUILD
are single non-empty runs over `[0-9A-Za-z-.]` (dots may appear anywhere,
including leading, trailing or adjacent), and in addition each numeric
component must have a value that fits a signed 64-bit integer, since
`strconv.Atoi` rejects larger values. -/
def amendedVersionGrammar (s : List Char) : Bool :=
  let s1 := if s.head? = some 'v' then s.tail else s
  let major := s1.takeWhile isDigitChar
  let r0 := s1.dropWhile isDigitChar
  let (minor, r1) := optNumGroup r0
  let (patch, r2) := optNumGroup r1
  let (_, r3) := optTagGroup '-' r2
  let (_, r4) := optTagGroup '+' r3
  !major.isEmpty && r4.isEmpty && digitsToNat major ≤ int64Max &&
    minor.elim true (fun ds => digitsToNat ds ≤ int64Max) &&
    patch.elim true (fun ds => digitsToNat ds ≤ int64Max)

/-- Parsing the version remainder of a constraint token and attaching the
operator, as the claim describes the success and error propagation of
`ParseConstraint`. -/
def opThenVer (op : Operator) (rest : List Char) : Except CError Constraint :=
  match ParseVersionL rest with
  | .error e => .error (.invalidVersionInConstraint e)
  | .ok v => .ok ⟨op, v⟩

/-- Invariants `ParseVersion` guarantees about every version it returns,
used for the round-trip proof. -/
def VersionWF (v : Version) : Prop :=
  v.Major ≤ int64Max ∧ v.Minor ≤ int64Max ∧ v.Patch ≤ int64Max ∧
    (v.Prerelease.data = [] ∨
      (v.Prerelease.data ≠ [] ∧ ∀ c ∈ v.Prerelease.data, isIdentChar c)) ∧
    (v.Build.data = [] ∨
      (v.Build.data ≠ [] ∧ ∀ c ∈ v.Build.data, isIdentChar c))

/-!  Helper lemmas. -/

theorem charEq_of_toNat_eq {a b : Char} (h : a.toNat = b.toNat) : a = b :=
  Char.eq_of_val_eq (UInt32.eq_of_toBitVec_eq (BitVec.eq_of_toNat_eq h))

theorem goStringLt_irrefl (a : List Char) : goStringLt a a = false := by
  induction a with
  | nil => rfl
  | cons x xs ih => simp [goStringLt, ih]

theorem goStringLt_asymm {a b : List Char} (h : goStringLt a b = true) :
    goStringLt b a = false := by
  induction a generalizing b with
  | nil =>
    cases b with
    | nil => simp [goStringLt] at h
    | cons y ys => simp [goStringLt]
  | cons x xs ih =>
    cases b with
    | nil => simp [goStringLt] at h
    | cons y ys =>
      simp only [goStringLt] at h ⊢
      by_cases h1 : x.toNat < y.toNat
      · have h2 : ¬ y.toNat < x.toNat := by omega
        simp [h1, h2]
      · by_cases h2 : y.toNat < x.toNat
        · simp [h1, h2] at h
        · simp [h1, h2] at h ⊢
          exact ih h

theorem goStringLt_connex (a b : List Char) :
    goStringLt a b = true ∨ goStringLt b a = true ∨ a = b := by
  induction a generalizing b with
  | nil =>
    cases b with
    | nil => right; right; rfl
    | cons y ys => left; rfl
  | cons x xs ih =>
    cases b with
    | nil => right; left; rfl
    | cons y ys =>
      by_cases h1 : x.toNat < y.toNat
      · left; simp [goStringLt, h1]
      · by_cases h2 : y.toNat < x.toNat
        · right; left; simp [goStringLt, h2]
        · have hxy : x = y := charEq_of_toNat_eq (by omega)
          subst hxy
          rcases ih ys with h | h | h
          · left; simp [goStringLt, h]
          · right; left; simp [goStringLt, h]
          · right; right; simp [h]

theorem goStringLt_trans {a b c : List Char} (h1 : goStringLt a b = true)
    (h2 : goStringLt b c = true) : goStringLt a c = true := by
  induction a generalizing b c with
  | nil =>
    cases b with
    | nil => simp [goStringLt] at h1
    | cons y ys =>
      cases c with
      | nil => simp [goStringLt] at h2
      | cons z zs => rfl
  | cons x xs ih =>
    cases b with
    | nil => simp [goStringLt] at h1
    | cons y ys =>
      cases c with
      | nil => simp [goStringLt] at h2
      | cons z zs =>
        simp only [goStringLt] at h1 h2 ⊢
        by_cases hxy : x.toNat < y.toNat <;> by_cases hyz : y.toNat < z.toNat
        · simp [show x.toNat < z.toNat by omega]
        · by_cases hzy : z.toNat < y.toNat
          · simp [hyz, hzy] at h2
          · have : y = z := charEq_of_toNat_eq (by omega)
            subst this
            simp [hxy]
        · by_cases hyx : y.toNat < x.toNat
          · simp [hxy, hyx] at h1
          · have : x = y := charEq_of_toNat_eq (by omega)
            subst this
            simp [hyz]
        · by_cases hyx : y.toNat < x.toNat
          · simp [hxy, hyx] at h1
          · have hxy2 : x = y := charEq_of_toNat_eq (by omega)
            subst hxy2
            by_cases hzy : z.toNat < x.toNat
            · simp [hyz, hzy] at h2
            · have hyz2 : x = z := charEq_of_toNat_eq (by omega)
              subst hyz2
              simp only [Nat.lt_irrefl, if_false] at h1 h2 ⊢
              exact ih h1 h2

theorem stringEq_of_data_eq {p q : String} (h : p.data = q.data) : p = q := by
  cases p; cases q; exact congrArg String.mk h

theorem comparePrerelease_self (p : String) : comparePrerelease p p = 0 := by
  unfold comparePrerelease
  by_cases hp : p = "" <;> simp [hp, goStringLt_irrefl]

theorem comparePrerelease_antisymm (p q : String) :
    comparePrerelease p q = -comparePrerelease q p := by
  unfold comparePrerelease
  by_cases hp : p = "" <;> by_cases hq : q = "" <;> simp [hp, hq]
  rcases hlt : goStringLt p.data q.data with _ | _
  · rcases hlt2 : goStringLt q.data p.data with _ | _
    · simp
    · simp
  · rw [goStringLt_asymm hlt]
    simp

theorem comparePrerelease_range (p q : String) :
    comparePrerelease p q = -1 ∨ comparePrerelease p q = 0 ∨ comparePrerelease p q = 1 := by
  unfold comparePrerelease
  by_cases hp : p = "" <;> by_cases hq : q = "" <;> simp [hp, hq]
  rcases hlt : goStringLt p.data q.data with _ | _ <;>
    rcases hlt2 : goStringLt q.data p.data with _ | _ <;> simp

theorem goStringLt_false_trans {a b c : List Char} (h1 : goStringLt b a = false)
    (h2 : goStringLt c b = false) : goStringLt c a = false := by
  rcases hca : goStringLt c a with _ | _
  · rfl
  · exfalso
    rcases goStringLt_connex a b with h | h | h
    · have := goStringLt_trans hca h
      rw [this] at h2
      exact Bool.noConfusion h2
    · rw [h] at h1
      exact Bool.noConfusion h1
    · subst h
      rw [hca] at h2
      exact Bool.noConfusion h2

theorem comparePrerelease_trans {p q r : String}
    (h1 : comparePrerelease p q ≤ 0) (h2 : comparePrerelease q r ≤ 0) :
    comparePrerelease p r ≤ 0 := by
  unfold comparePrerelease at h1 h2 ⊢
  by_cases hp : p = "" <;> by_cases hq : q = "" <;> by_cases hr : r = "" <;>
    simp [hp, hq, hr] at h1 h2 ⊢
  have hqp : goStringLt q.data p.data = false := by
    rcases hlt2 : goStringLt q.data p.data with _ | _
    · rfl
    · exfalso
      have hpq : goStringLt p.data q.data = false := goStringLt_asymm hlt2
      rw [hpq, hlt2] at h1
      simp at h1
  have hrq : goStringLt r.data q.data = false := by
    rcases hlt2 : goStringLt r.data q.data with _ | _
    · rfl
    · exfalso
      have hqr : goStringLt q.data r.data = false := goStringLt_asymm hlt2
      rw [hqr, hlt2] at h2
      simp at h2
  have hrp : goStringLt r.data p.data = false := goStringLt_false_trans hqp hrq
  rcases hlt : goStringLt p.data r.data with _ | _
  · simp [hrp]
  · simp

theorem comparePrerelease_spec (p q : String) :
    comparePrerelease p q =
      (if p = "" then (if q = "" then (0 : Int) else 1)
       else if q = "" then -1
       else if goStringLt p.data q.data then -1
       else if goStringLt q.data p.data then 1
       else 0) := by
  unfold comparePrerelease
  by_cases hp : p = "" <;> by_cases hq : q = "" <;> simp [hp, hq]

theorem compareStep_eq (x y : Nat) (t : Int) :
    (if x ≠ y then (if x < y then (-1 : Int) else 1) else t) =
    (if x < y then -1 else if y < x then 1 else t) := by
  split_ifs <;> first | rfl | omega

theorem compareStep_neg (x y : Nat) (s t : Int) (h : s = -t) :
    (if x ≠ y then (if x < y then (-1 : Int) else 1) else s) =
    -(if y ≠ x then (if y < x then (-1 : Int) else 1) else t) := by
  split_ifs <;> omega

theorem compareStep_trans (x y z : Nat) (s t u : Int)
    (hst : s ≤ 0 → t ≤ 0 → u ≤ 0) :
    (if x ≠ y then (if x < y then (-1 : Int) else 1) else s) ≤ 0 →
    (if y ≠ z then (if y < z then (-1 : Int) else 1) else t) ≤ 0 →
    (if x ≠ z then (if x < z then (-1 : Int) else 1) else u) ≤ 0 := by
  split_ifs <;> intro h1 h2 <;> omega

theorem compareStep_range (x y : Nat) (s : Int)
    (hs : s = -1 ∨ s = 0 ∨ s = 1) :
    (if x ≠ y then (if x < y then (-1 : Int) else 1) else s) = -1 ∨
    (if x ≠ y then (if x < y then (-1 : Int) else 1) else s) = 0 ∨
    (if x ≠ y then (if x < y then (-1 : Int) else 1) else s) = 1 := by
  split_ifs <;> omega

/-- C1: for every pair of parsed Versions `a` and `b`, `Compare a b` compares
major, then minor, then patch numerically with the first unequal field
deciding; when the triples are equal, a side with no prerelease is greater
than a side with one, two absent prereleases are equal, and two present
prerelease strings are compared by plain lexicographic byte order
(`specCompare` states exactly this rule; it is proved for all Versions,
hence in particular for all parsed ones). -/
theorem C1_compare_follows_spec (a b : Version) :
    Version.Compare a b = specCompare a b := by
  unfold Version.Compare specCompare
  rw [comparePrerelease_spec, compareStep_eq, compareStep_eq, compareStep_eq]

/-- C4: `Compare` is a total order on Versions: antisymmetric
(`Compare a b = -Compare b a`), transitive on the `≤ 0` relation, and always
one of -1, 0, +1 (proved for all Versions, hence for all parsed ones). -/
theorem C4_compare_total_order :
    (∀ a b : Version, Version.Compare a b = -Version.Compare b a) ∧
    (∀ a b c : Version, Version.Compare a b ≤ 0 → Version.Compare b c ≤ 0 →
      Version.Compare a c ≤ 0) ∧
    (∀ a b : Version, Version.Compare a b = -1 ∨ Version.Compare a b = 0 ∨
      Version.Compare a b = 1) := by
  refine ⟨?_, ?_, ?_⟩
  · intro a b
    unfold Version.Compare
    exact compareStep_neg _ _ _ _ (compareStep_neg _ _ _ _
      (compareStep_neg _ _ _ _ (comparePrerelease_antisymm _ _)))
  · intro a b c h1 h2
    unfold Version.Compare at h1 h2 ⊢
    exact compareStep_trans _ _ _ _ _ _
      (fun i1 i2 => compareStep_trans _ _ _ _ _ _
        (fun j1 j2 => compareStep_trans _ _ _ _ _ _
          (fun k1 k2 => comparePrerelease_trans k1 k2) j1 j2) i1 i2) h1 h2
  · intro a b
    unfold Version.Compare
    exact compareStep_range _ _ _ (compareStep_range _ _ _
      (compareStep_range _ _ _ (comparePrerelease_range _ _)))

/-- Witness for the transitivity part of C4 at concrete versions. -/
theorem C4_compare_total_order_witness :
    Version.Compare ⟨1, 2, 3, "", ""⟩ ⟨1, 2, 4, "", ""⟩ ≤ 0 ∧
    Version.Compare ⟨1, 2, 4, "", ""⟩ ⟨2, 0, 0, "", ""⟩ ≤ 0 ∧
    Version.Compare ⟨1, 2, 3, "", ""⟩ ⟨2, 0, 0, "", ""⟩ ≤ 0 :=
  ⟨by decide, by decide,
    C4_compare_total_order.2.1 ⟨1, 2, 3, "", ""⟩ ⟨1, 2, 4, "", ""⟩
      ⟨2, 0, 0, "", ""⟩ (by decide) (by decide)⟩

/-- C2, counterexample: with bound `0.0.3` and candidate `0.1.3` the code is
not satisfied (it also requires equal minor), while the rule exactly as the
claim words it is satisfied, so the claim as stated is false. -/
theorem C2_caret_counterexample :
    Constraint.IsSatisfiedBy ⟨.OpCaret, ⟨0, 0, 3, "", ""⟩⟩ ⟨0, 1, 3, "", ""⟩ = false ∧
    claimCaretRule ⟨0, 0, 3, "", ""⟩ ⟨0, 1, 3, "", ""⟩ = true := ⟨rfl, rfl⟩

/-- C2, amended: a caret constraint is satisfied per the claim's rule with
the `b.major == 0, b.minor == 0` case additionally requiring
`v.minor == b.minor`, as the code checks minor equality before the patch
comparison whenever `b.major == 0`. -/
theorem C2_caret_amended (b v : Version) :
    Constraint.IsSatisfiedBy ⟨.OpCaret, b⟩ v = amendedCaretRule b v := by
  simp only [Constraint.IsSatisfiedBy, Constraint.caretConstraint, amendedCaretRule]
  split_ifs <;> simp_all

/-- C3: a tilde constraint with bound `b` is satisfied by `v` iff
`v.major == b.major`, `v.minor == b.minor` and `v.patch >= b.patch`;
`~1` parses with minor and patch defaulted to 0 and is therefore satisfied
only by versions with minor 0. -/
theorem C3_tilde_constraint :
    (∀ b v : Version, Constraint.IsSatisfiedBy ⟨.OpTilde, b⟩ v = true ↔
      (v.Major = b.Major ∧ v.Minor = b.Minor ∧ b.Patch ≤ v.Patch)) ∧
    ParseConstraint "~1" = .ok ⟨.OpTilde, ⟨1, 0, 0, "", ""⟩⟩ ∧
    (∀ v : Version,
      Constraint.IsSatisfiedBy ⟨.OpTilde, ⟨1, 0, 0, "", ""⟩⟩ v = true → v.Minor = 0) := by
  refine ⟨?_, rfl, ?_⟩
  · intro b v
    simp only [Constraint.IsSatisfiedBy, Constraint.tildeConstraint]
    split_ifs <;> simp_all
  · intro v h
    simp only [Constraint.IsSatisfiedBy, Constraint.tildeConstraint] at h
    split_ifs at h
    simp_all

/-- Witness for C3 at a concrete version. -/
theorem C3_tilde_constraint_witness :
    Constraint.IsSatisfiedBy ⟨.OpTilde, ⟨1, 0, 0, "", ""⟩⟩ ⟨1, 0, 7, "", ""⟩ = true ∧
    (⟨1, 0, 7, "", ""⟩ : Version).Minor = 0 :=
  ⟨by decide, C3_tilde_constraint.2.2 ⟨1, 0, 7, "", ""⟩ (by decide)⟩

/-- C8: build metadata never affects comparison or satisfaction: replacing
the build fields of both arguments of `Compare`, or of a candidate version
and a constraint's bound version, leaves the result unchanged. -/
theorem C8_build_noninterference :
    (∀ (a b : Version) (x y : String),
      Version.Compare { a with Build := x } { b with Build := y } =
        Version.Compare a b) ∧
    (∀ (c : Constraint) (v : Version) (x y : String),
      Constraint.IsSatisfiedBy ⟨c.Operator, { c.Version with Build := y }⟩
          { v with Build := x } =
        Constraint.IsSatisfiedBy c v) := by
  constructor
  · intro a b x y
    cases a; cases b; rfl
  · intro c v x y
    cases c with
    | mk op cv => cases cv; cases v; cases op <;> rfl

theorem amendedVersionGrammar_eq_match (s : List Char) :
    amendedVersionGrammar s =
      match versionRegexMatch s with
      | none => false
      | some g =>
        decide (digitsToNat g.major ≤ int64Max) &&
          g.minor.elim true (fun ds => decide (digitsToNat ds ≤ int64Max)) &&
          g.patch.elim true (fun ds => decide (digitsToNat ds ≤ int64Max)) := by
  unfold amendedVersionGrammar versionRegexMatch
  rcases h1 : optNumGroup ((if s.head? = some 'v' then s.tail else s).dropWhile isDigitChar)
    with ⟨minor, r1⟩
  rcases h2 : optNumGroup r1 with ⟨patch, r2⟩
  rcases h3 : optTagGroup '-' r2 with ⟨pre, r3⟩
  rcases h4 : optTagGroup '+' r3 with ⟨build, r4⟩
  simp only [h1, h2, h3, h4]
  by_cases hM : ((if s.head? = some 'v' then s.tail else s).takeWhile isDigitChar).isEmpty <;>
    simp only [hM, Bool.not_true, Bool.not_false, Bool.false_and, Bool.true_and]
  · rfl
  · by_cases hr4 : r4.isEmpty <;> simp [hr4]

theorem parseVersionL_isOk_eq_match (s : List Char) :
    exceptIsOk (ParseVersionL s) =
      match versionRegexMatch s with
      | none => false
      | some g =>
        decide (digitsToNat g.major ≤ int64Max) &&
          g.minor.elim true (fun ds => decide (digitsToNat ds ≤ int64Max)) &&
          g.patch.elim true (fun ds => decide (digitsToNat ds ≤ int64Max)) := by
  unfold ParseVersionL
  cases hs : s.isEmpty
  · simp only [Bool.false_eq_true, if_false]
    rcases hv : versionRegexMatch s with _ | g
    · simp [exceptIsOk]
    · simp only []
      rcases g with ⟨gm, gmi, gp, gpre, gb⟩
      unfold Atoi
      by_cases hA : digitsToNat gm ≤ int64Max <;>
        cases gmi <;> cases gp <;>
          simp [hA, exceptIsOk, Option.elim] <;>
            split_ifs <;> simp_all [exceptIsOk]
  · have : s = [] := by
      cases s
      · rfl
      · simp at hs
    subst this
    simp [versionRegexMatch, exceptIsOk]

/-- C5, counterexample: the input `"1.0.0-."` parses successfully (the regex
prerelease class `[0-9A-Za-z\-\.]` admits a bare dot), but its prerelease is
not one or more dot-separated segments of `[0-9A-Za-z-]+`, so it does not
match the claim's grammar: parse success is not equivalent to the claim's
grammar. -/
theorem C5_parse_grammar_counterexample :
    ParseVersion "1.0.0-." = .ok ⟨1, 0, 0, ".", ""⟩ ∧
    specVersionGrammar "1.0.0-.".data = false := ⟨rfl, rfl⟩

/-- C5, amended: `parseVersion s` succeeds iff `s` matches, anchored end to
end, `["v"] MAJOR ["." MINOR ["." PATCH]] ["-" PRERELEASE] ["+" BUILD]`
where MAJOR/MINOR/PATCH are one or more ASCII digits whose value fits a
signed 64-bit integer and PRERELEASE and BUILD are each a non-empty run over
`[0-9A-Za-z-.]` (dots may appear anywhere in them); on success absent MINOR
and PATCH are 0, and the listed malformed inputs are errors with no partial
Version. -/
theorem C5_parse_iff_amended_grammar :
    (∀ s : String, exceptIsOk (ParseVersion s) = amendedVersionGrammar s.data) ∧
    (∀ (s : List Char) (g : VGroups) (v : Version), versionRegexMatch s = some g →
      ParseVersionL s = .ok v →
      (g.minor = none → v.Minor = 0) ∧ (g.patch = none → v.Patch = 0)) ∧
    (ParseVersion "" = .error .emptyVersion ∧
      ParseVersion "a.b.c" = .error .invalidFormat ∧
      ParseVersion "1.2.3.4.5" = .error .invalidFormat ∧
      ParseVersion "-1.2.3" = .error .invalidFormat) := by
  refine ⟨?_, ?_, rfl, rfl, rfl, rfl⟩
  · intro s
    rw [ParseVersion, parseVersionL_isOk_eq_match, amendedVersionGrammar_eq_match]
  · intro s g v hm hp
    unfold ParseVersionL at hp
    cases hs : s.isEmpty
    · rw [hs] at hp
      simp only [Bool.false_eq_true, if_false, hm] at hp
      rcases g with ⟨gm, gmi, gp, gpre, gb⟩
      rcases gmi with _ | mds <;> rcases gp with _ | pds <;>
        dsimp only [] at hp ⊢ <;> cases hA : Atoi gm <;> rw [hA] at hp
      · simp at hp
      · dsimp only [] at hp
        simp only [Except.ok.injEq] at hp
        subst hp
        exact ⟨fun _ => rfl, fun _ => rfl⟩
      · simp at hp
      · dsimp only [] at hp
        rcases hC : Atoi pds with _ | pv <;> rw [hC] at hp
        · simp at hp
        · dsimp only [] at hp
          simp only [Except.ok.injEq] at hp
          subst hp
          exact ⟨fun _ => rfl, nofun⟩
      · simp at hp
      · dsimp only [] at hp
        rcases hB : Atoi mds with _ | mv <;> rw [hB] at hp
        · simp at hp
        · dsimp only [] at hp
          simp only [Except.ok.injEq] at hp
          subst hp
          exact ⟨nofun, fun _ => rfl⟩
      · simp at hp
      · dsimp only [] at hp
        rcases hB : Atoi mds with _ | mv <;> rw [hB] at hp
        · simp at hp
        · dsimp only [] at hp
          rcases hC : Atoi pds with _ | pv <;> rw [hC] at hp
          · simp at hp
          · dsimp only [] at hp
            simp only [Except.ok.injEq] at hp
            subst hp
            exact ⟨nofun, nofun⟩
    · have : s = [] := by
        cases s
        · rfl
        · simp at hs
      subst this
      simp [versionRegexMatch] at hm

/-- Witness for C5 at concrete inputs. -/
theorem C5_parse_iff_amended_grammar_witness :
    exceptIsOk (ParseVersion "v1.2-rc.1") = amendedVersionGrammar "v1.2-rc.1".data ∧
    ((⟨1, 0, 0, "", ""⟩ : Version).Minor = 0 ∧ (⟨1, 0, 0, "", ""⟩ : Version).Patch = 0) :=
  ⟨C5_parse_iff_amended_grammar.1 "v1.2-rc.1",
    (C5_parse_iff_amended_grammar.2.1 "1".data ⟨['1'], none, none, none, none⟩
        ⟨1, 0, 0, "", ""⟩ rfl rfl).1 rfl,
    (C5_parse_iff_amended_grammar.2.1 "1".data ⟨['1'], none, none, none, none⟩
        ⟨1, 0, 0, "", ""⟩ rfl rfl).2 rfl⟩

theorem parseConstraintL_opSplit (s : List Char) (t : List Char) (op : Operator)
    (hn : s.contains '\n' = false) (hne : s.isEmpty = false)
    (hfind : firstTok s = some t) (hop : operatorOf t = some op) :
    ParseConstraintL s = opThenVer op (s.drop t.length) := by
  unfold ParseConstraintL constraintRegexMatch
  rw [hne, hn, hfind]
  simp [hop, opThenVer]

/-- C6, counterexample: the claim says a leading `=` yields an `OpEqual`
constraint, with `"=1.2.3"` parsing successfully; but `constraintRegex` has
no `=` alternative, so group 2 becomes `"=1.2.3"`, which is not a valid
version, and parsing fails. -/
theorem C6_equal_counterexample :
    ParseConstraint "=1.2.3" = .error (.invalidVersionInConstraint .invalidFormat) := rfl

/-- C6, amended: `parseConstraint` recognizes an optional leading operator
token from `{">=", "<=", ">", "<", "~", "^", "!="}` (longest match first,
and a token is only consumed when a non-empty remainder follows); absence of
an operator token yields `OpEqual`; a leading `=` is NOT an operator token,
so `"=1.2.3"` fails, surfacing the inner version error; an operator followed
by an unparseable (newline-free) version surfaces the inner version error;
empty input is an error.  (Inputs containing a newline fail the constraint
regex itself, since RE2's `.` does not match `\n`.) -/
theorem C6_constraint_parsing_amended :
    (∀ r : List Char, r ≠ [] → r.contains '\n' = false →
      ParseConstraintL ('>' :: '=' :: r) = opThenVer .OpGreaterEqual r ∧
      ParseConstraintL ('<' :: '=' :: r) = opThenVer .OpLessEqual r ∧
      ParseConstraintL ('!' :: '=' :: r) = opThenVer .OpNotEqual r ∧
      ParseConstraintL ('~' :: r) = opThenVer .OpTilde r ∧
      ParseConstraintL ('^' :: r) = opThenVer .OpCaret r ∧
      (r.head? ≠ some '=' →
        ParseConstraintL ('>' :: r) = opThenVer .OpGreater r ∧
        ParseConstraintL ('<' :: r) = opThenVer .OpLess r)) ∧
    (∀ r : List Char, r ≠ [] → r.contains '\n' = false →
      (∀ t ∈ tokList, t.isPrefixOf r = false) →
      ParseConstraintL r = opThenVer .OpEqual r) ∧
    (∀ r : List Char, r.contains '\n' = false →
      ParseConstraintL ('=' :: r) = .error (.invalidVersionInConstraint .invalidFormat)) ∧
    ParseConstraint "" = .error .emptyConstraint := by
  have hlen : ∀ (r : List Char) (n : Nat), r ≠ [] → decide (n < r.length + n) = true := by
    intro r n hr
    cases r
    · exact absurd rfl hr
    · simp
  refine ⟨?_, ?_, ?_, rfl⟩
  · intro r hr hn
    have hn2 : ('\n' : Char) ∉ r := by simpa using hn
    refine ⟨?_, ?_, ?_, ?_, ?_, ?_⟩
    · have h2 := hlen r 2 hr
      refine parseConstraintL_opSplit _ ['>', '='] _ (by simp [List.contains_cons, hn2])
        rfl ?_ rfl
      simp_all [firstTok, tokList, List.find?, List.isPrefixOf]
    · have h2 := hlen r 2 hr
      refine parseConstraintL_opSplit _ ['<', '='] _ (by simp [List.contains_cons, hn2])
        rfl ?_ rfl
      simp_all [firstTok, tokList, List.find?, List.isPrefixOf]
    · have h2 := hlen r 2 hr
      refine parseConstraintL_opSplit _ ['!', '='] _ (by simp [List.contains_cons, hn2])
        rfl ?_ rfl
      simp_all [firstTok, tokList, List.find?, List.isPrefixOf]
    · have h1 := hlen r 1 hr
      refine parseConstraintL_opSplit _ ['~'] _ (by simp [List.contains_cons, hn2])
        rfl ?_ rfl
      simp_all [firstTok, tokList, List.find?, List.isPrefixOf]
    · have h1 := hlen r 1 hr
      refine parseConstraintL_opSplit _ ['^'] _ (by simp [List.contains_cons, hn2])
        rfl ?_ rfl
      simp_all [firstTok, tokList, List.find?, List.isPrefixOf]
    · intro hhead
      have heq : ['='].isPrefixOf r = false := by
        cases r with
        | nil => rfl
        | cons c r2 =>
          simp at hhead
          simp [List.isPrefixOf]
          exact fun h => hhead h.symm
      constructor
      · have h1 := hlen r 1 hr
        refine parseConstraintL_opSplit _ ['>'] _ (by simp [List.contains_cons, hn2])
          rfl ?_ rfl
        simp_all [firstTok, tokList, List.find?, List.isPrefixOf]
      · have h1 := hlen r 1 hr
        refine parseConstraintL_opSplit _ ['<'] _ (by simp [List.contains_cons, hn2])
          rfl ?_ rfl
        simp_all [firstTok, tokList, List.find?, List.isPrefixOf]
  · intro r hr hn hpre
    have hfind : firstTok r = none := by
      unfold firstTok
      rw [List.find?_eq_none]
      intro t ht
      simp [hpre t ht]
    have hne : r.isEmpty = false := by
      cases r
      · exact absurd rfl hr
      · rfl
    unfold ParseConstraintL constraintRegexMatch
    rw [hne, hn, hfind]
    simp [opThenVer, operatorOf]
  · intro r hn
    have hn2 : ('\n' : Char) ∉ r := by simpa using hn
    have hfind : firstTok ('=' :: r) = none := by
      unfold firstTok tokList
      simp [List.find?, List.isPrefixOf]
    have hver : ParseVersionL ('=' :: r) = .error .invalidFormat := by
      unfold ParseVersionL versionRegexMatch
      simp [List.takeWhile, isDigitChar]
    unfold ParseConstraintL constraintRegexMatch
    rw [hfind]
    simp [List.contains_cons, hn2, hver, operatorOf]

/-- Witness for C6 at concrete inputs. -/
theorem C6_constraint_parsing_amended_witness :
    ParseConstraintL ('>' :: '=' :: ['1']) = opThenVer .OpGreaterEqual ['1'] ∧
    ParseConstraintL ['1', '.', '2'] = opThenVer .OpEqual ['1', '.', '2'] ∧
    ParseConstraintL ('=' :: "1.2.3".data) =
      .error (.invalidVersionInConstraint .invalidFormat) :=
  ⟨(C6_constraint_parsing_amended.1 ['1'] (by decide) (by decide)).1,
    C6_constraint_parsing_amended.2.1 ['1', '.', '2'] (by decide) (by decide) (by decide),
    C6_constraint_parsing_amended.2.2.1 "1.2.3".data (by decide)⟩

theorem takeWhile_append_all (p : Char → Bool) (l₁ l₂ : List Char)
    (h : ∀ c ∈ l₁, p c = true) :
    (l₁ ++ l₂).takeWhile p = l₁ ++ l₂.takeWhile p := by
  induction l₁ with
  | nil => simp
  | cons a as ih =>
    simp only [List.cons_append, List.takeWhile_cons, h a (by simp)]
    exact congrArg (a :: ·) (ih (fun c hc => h c (by simp [hc])))

theorem dropWhile_append_all (p : Char → Bool) (l₁ l₂ : List Char)
    (h : ∀ c ∈ l₁, p c = true) :
    (l₁ ++ l₂).dropWhile p = l₂.dropWhile p := by
  induction l₁ with
  | nil => simp
  | cons a as ih =>
    simp only [List.cons_append, List.dropWhile_cons, h a (by simp), if_true]
    exact ih (fun c hc => h c (by simp [hc]))

theorem digitVal_digitChar {d : Nat} (h : d < 10) : digitVal (digitChar d) = d := by
  interval_cases d <;> rfl

theorem isDigitChar_digitChar {d : Nat} (h : d < 10) : isDigitChar (digitChar d) = true := by
  interval_cases d <;> rfl

theorem digitsToNat_append_single (xs : List Char) (c : Char) :
    digitsToNat (xs ++ [c]) = 10 * digitsToNat xs + digitVal c := by
  simp [digitsToNat, List.foldl_append]

theorem natToDecAux_spec : ∀ (fuel n : Nat), n < fuel →
    natToDecAux fuel n ≠ [] ∧ (∀ c ∈ natToDecAux fuel n, isDigitChar c = true) ∧
      digitsToNat (natToDecAux fuel n) = n := by
  intro fuel
  induction fuel with
  | zero => intro n h; omega
  | succ f ih =>
    intro n h
    unfold natToDecAux
    by_cases h10 : n < 10
    · simp only [h10, if_true]
      refine ⟨by simp, ?_, ?_⟩
      · intro c hc
        simp at hc
        subst hc
        exact isDigitChar_digitChar h10
      · simp [digitsToNat, digitVal_digitChar h10]
    · simp only [h10, if_false]
      have hrec := ih (n / 10) (by omega)
      refine ⟨by simp [hrec.1], ?_, ?_⟩
      · intro c hc
        rcases List.mem_append.mp hc with hc | hc
        · exact hrec.2.1 c hc
        · simp at hc
          subst hc
          exact isDigitChar_digitChar (by omega)
      · rw [digitsToNat_append_single, hrec.2.2, digitVal_digitChar (by omega)]
        omega

theorem natToDec_ne_nil (n : Nat) : natToDec n ≠ [] :=
  (natToDecAux_spec (n + 1) n (by omega)).1

theorem natToDec_digits (n : Nat) : ∀ c ∈ natToDec n, isDigitChar c = true :=
  (natToDecAux_spec (n + 1) n (by omega)).2.1

theorem digitsToNat_natToDec (n : Nat) : digitsToNat (natToDec n) = n :=
  (natToDecAux_spec (n + 1) n (by omega)).2.2

theorem optTagGroup_some {mark : Char} {s t r : List Char}
    (h : optTagGroup mark s = (some t, r)) :
    t ≠ [] ∧ ∀ c ∈ t, isIdentChar c = true := by
  unfold optTagGroup at h
  cases s with
  | nil => simp at h
  | cons c rest =>
    by_cases hc : c = mark
    · simp only [hc, if_true] at h
      by_cases he : (rest.takeWhile isIdentChar).isEmpty
      · simp [he] at h
      · have hef : (rest.takeWhile isIdentChar).isEmpty = false := by simpa using he
        simp only [hef, Bool.false_eq_true, if_false, Prod.mk.injEq,
          Option.some.injEq] at h
        rcases h with ⟨ht, _⟩
        subst ht
        refine ⟨by simpa using he, ?_⟩
        intro c2 hc2
        exact List.mem_takeWhile_imp hc2
    · simp [hc] at h

theorem atoi_bound {ds : List Char} {n : Nat} (h : Atoi ds = some n) :
    n ≤ int64Max ∧ n = digitsToNat ds := by
  unfold Atoi at h
  by_cases hb : digitsToNat ds ≤ int64Max
  · simp only [hb, if_true, Option.some.injEq] at h
    subst h
    exact ⟨hb, rfl⟩
  · simp [hb] at h

theorem versionRegexMatch_groups {s : List Char} {g : VGroups}
    (h : versionRegexMatch s = some g) :
    (∀ t, g.pre = some t → t ≠ [] ∧ ∀ c ∈ t, isIdentChar c = true) ∧
    (∀ t, g.build = some t → t ≠ [] ∧ ∀ c ∈ t, isIdentChar c = true) := by
  unfold versionRegexMatch at h
  rcases h1 : optNumGroup ((if s.head? = some 'v' then s.tail else s).dropWhile isDigitChar)
    with ⟨minor, r1⟩
  rcases h2 : optNumGroup r1 with ⟨patch, r2⟩
  rcases h3 : optTagGroup '-' r2 with ⟨pre, r3⟩
  rcases h4 : optTagGroup '+' r3 with ⟨build, r4⟩
  simp only [h1, h2, h3, h4] at h
  by_cases hM : ((if s.head? = some 'v' then s.tail else s).takeWhile isDigitChar).isEmpty
  · simp [hM] at h
  · have hMf : ((if s.head? = some 'v' then s.tail else s).takeWhile isDigitChar).isEmpty
        = false := by simpa using hM
    rw [hMf] at h
    simp only [Bool.false_eq_true, if_false] at h
    by_cases hr4 : r4.isEmpty
    · simp only [hr4, if_true, Option.some.injEq] at h
      subst h
      constructor
      · intro t ht
        dsimp only [] at ht
        subst ht
        exact optTagGroup_some h3
      · intro t ht
        dsimp only [] at ht
        subst ht
        exact optTagGroup_some h4
    · have : r4.isEmpty = false := by simpa using hr4
      rw [this] at h
      simp at h

theorem compare_self (v : Version) : Version.Compare v v = 0 := by
  unfold Version.Compare
  simp [comparePrerelease_self]

theorem parseVersionL_wf {s : List Char} {v : Version}
    (h : ParseVersionL s = .ok v) : VersionWF v := by
  unfold ParseVersionL at h
  cases hs : s.isEmpty
  · rw [hs] at h
    simp only [Bool.false_eq_true, if_false] at h
    rcases hv : versionRegexMatch s with _ | g
    · rw [hv] at h
      simp at h
    · have hgroups := versionRegexMatch_groups hv
      simp only [hv] at h
      rcases g with ⟨gm, gmi, gp, gpre, gb⟩
      dsimp only [] at hgroups
      have hpre : (String.mk (gpre.getD [])).data = [] ∨
          ((String.mk (gpre.getD [])).data ≠ [] ∧
            ∀ c ∈ (String.mk (gpre.getD [])).data, isIdentChar c = true) := by
        rcases gpre with _ | t
        · left; rfl
        · right
          exact hgroups.1 t rfl
      have hbuild : (String.mk (gb.getD [])).data = [] ∨
          ((String.mk (gb.getD [])).data ≠ [] ∧
            ∀ c ∈ (String.mk (gb.getD [])).data, isIdentChar c = true) := by
        rcases gb with _ | t
        · left; rfl
        · right
          exact hgroups.2 t rfl
      rcases gmi with _ | mds <;> rcases gp with _ | pds <;>
        dsimp only [] at h <;> cases hA : Atoi gm <;> rw [hA] at h
      · simp at h
      · dsimp only [] at h
        simp only [Except.ok.injEq] at h
        subst h
        exact ⟨(atoi_bound hA).1, by simp, by simp, hpre, hbuild⟩
      · simp at h
      · dsimp only [] at h
        cases hC : Atoi pds <;> rw [hC] at h
        · simp at h
        · dsimp only [] at h
          simp only [Except.ok.injEq] at h
          subst h
          exact ⟨(atoi_bound hA).1, by simp, (atoi_bound hC).1, hpre, hbuild⟩
      · simp at h
      · dsimp only [] at h
        cases hB : Atoi mds <;> rw [hB] at h
        · simp at h
        · dsimp only [] at h
          simp only [Except.ok.injEq] at h
          subst h
          exact ⟨(atoi_bound hA).1, (atoi_bound hB).1, by simp, hpre, hbuild⟩
      · simp at h
      · dsimp only [] at h
        cases hB : Atoi mds <;> rw [hB] at h
        · simp at h
        · dsimp only [] at h
          cases hC : Atoi pds <;> rw [hC] at h
          · simp at h
          · dsimp only [] at h
            simp only [Except.ok.injEq] at h
            subst h
            exact ⟨(atoi_bound hA).1, (atoi_bound hB).1, (atoi_bound hC).1, hpre, hbuild⟩
  · have : s = [] := by
      cases s
      · rfl
      · simp at hs
    subst this
    simp at h

theorem dropWhile_eq_self_of_takeWhile_nil {p : Char → Bool} {l : List Char}
    (h : l.takeWhile p = []) : l.dropWhile p = l := by
  cases l with
  | nil => rfl
  | cons a as =>
    by_cases hp : p a = true
    · rw [List.takeWhile_cons_of_pos hp] at h
      exact absurd h (by simp)
    · exact List.dropWhile_cons_of_neg hp

theorem seg_split (p : Char → Bool) (d rest : List Char) (hd : ∀ c ∈ d, p c = true)
    (hrest : rest.takeWhile p = []) :
    (d ++ rest).takeWhile p = d ∧ (d ++ rest).dropWhile p = rest := by
  constructor
  · rw [takeWhile_append_all p d rest hd, hrest, List.append_nil]
  · rw [dropWhile_append_all p d rest hd]
    exact dropWhile_eq_self_of_takeWhile_nil hrest

theorem natToDec_cons (n : Nat) : ∃ c t, natToDec n = c :: t ∧ isDigitChar c = true := by
  cases hq : natToDec n with
  | nil => exact absurd hq (natToDec_ne_nil n)
  | cons c t =>
    refine ⟨c, t, rfl, ?_⟩
    exact natToDec_digits n c (by rw [hq]; exact List.mem_cons_self _ _)

theorem digit_ne_v {c : Char} (h : isDigitChar c = true) : ¬(c = 'v') := by
  intro hv
  subst hv
  exact absurd h (by decide)

theorem natToDec_isEmpty (n : Nat) : (natToDec n).isEmpty = false := by
  cases hq : natToDec n with
  | nil => exact absurd hq (natToDec_ne_nil n)
  | cons c t => rfl

theorem versionRegexMatch_render (M mi pt : Nat) (tail : List Char)
    (htail : tail.takeWhile isDigitChar = []) :
    versionRegexMatch (natToDec M ++ '.' :: (natToDec mi ++ '.' :: (natToDec pt ++ tail))) =
      (match optTagGroup '-' tail with
       | (pre, r3) =>
         match optTagGroup '+' r3 with
         | (build, r4) =>
           if r4.isEmpty then
             some ⟨natToDec M, some (natToDec mi), some (natToDec pt), pre, build⟩
           else none) := by
  obtain ⟨c, t, hMc, hc⟩ := natToDec_cons M
  have hdot : ('.' :: (natToDec mi ++ '.' :: (natToDec pt ++ tail))).takeWhile isDigitChar
      = [] := List.takeWhile_cons_of_neg (by decide)
  have hdot2 : ('.' :: (natToDec pt ++ tail)).takeWhile isDigitChar = [] :=
    List.takeWhile_cons_of_neg (by decide)
  have hsegM := seg_split isDigitChar (natToDec M)
    ('.' :: (natToDec mi ++ '.' :: (natToDec pt ++ tail))) (natToDec_digits M) hdot
  have hsegm := seg_split isDigitChar (natToDec mi)
    ('.' :: (natToDec pt ++ tail)) (natToDec_digits mi) hdot2
  have hsegp := seg_split isDigitChar (natToDec pt) tail (natToDec_digits pt) htail
  have hcond : ¬((natToDec M ++ '.' :: (natToDec mi ++ '.' :: (natToDec pt ++ tail))).head?
      = some 'v') := by
    rw [hMc]
    simp only [List.cons_append, List.head?_cons, Option.some.injEq]
    exact digit_ne_v hc
  have hnum1 : optNumGroup ('.' :: (natToDec mi ++ '.' :: (natToDec pt ++ tail))) =
      (some (natToDec mi), '.' :: (natToDec pt ++ tail)) := by
    unfold optNumGroup
    dsimp only []
    rw [if_pos rfl, hsegm.1, natToDec_isEmpty mi]
    simp only [Bool.false_eq_true, if_false]
    rw [hsegm.2]
  have hnum2 : optNumGroup ('.' :: (natToDec pt ++ tail)) = (some (natToDec pt), tail) := by
    unfold optNumGroup
    dsimp only []
    rw [if_pos rfl, hsegp.1, natToDec_isEmpty pt]
    simp only [Bool.false_eq_true, if_false]
    rw [hsegp.2]
  unfold versionRegexMatch
  rw [if_neg hcond]
  simp only [hsegM.1, hsegM.2, natToDec_isEmpty M, Bool.false_eq_true, if_false,
    hnum1, hnum2]

theorem takeWhile_all {p : Char → Bool} {l : List Char} (h : ∀ c ∈ l, p c = true) :
    l.takeWhile p = l := by
  induction l with
  | nil => rfl
  | cons a as ih =>
    rw [List.takeWhile_cons_of_pos (h a (by simp))]
    exact congrArg (a :: ·) (ih (fun c hc => h c (by simp [hc])))

theorem dropWhile_all {p : Char → Bool} {l : List Char} (h : ∀ c ∈ l, p c = true) :
    l.dropWhile p = [] := by
  induction l with
  | nil => rfl
  | cons a as ih =>
    rw [List.dropWhile_cons_of_pos (h a (by simp))]
    exact ih (fun c hc => h c (by simp [hc]))

theorem isEmpty_false_of_ne_nil {l : List Char} (h : l ≠ []) : l.isEmpty = false := by
  cases l
  · exact absurd rfl h
  · rfl

theorem atoi_natToDec {n : Nat} (h : n ≤ int64Max) : Atoi (natToDec n) = some n := by
  unfold Atoi
  rw [digitsToNat_natToDec]
  simp [h]

theorem string_mk_data (s : String) : String.mk s.data = s := stringEq_of_data_eq rfl

theorem data_ne_nil_of_ne_empty {s : String} (h : s ≠ "") : s.data ≠ [] := by
  intro h0
  exact h (stringEq_of_data_eq (by rw [h0]))

theorem parse_of_render (v : Version) (hwf : VersionWF v) :
    ParseVersionL (Version.String v).data = .ok v := by
  obtain ⟨hM, hmi, hp, hpre, hbuild⟩ := hwf
  have hne : ∀ R : List Char, (natToDec v.Major ++ R).isEmpty = false := by
    intro R
    obtain ⟨c, t, hMc, _⟩ := natToDec_cons v.Major
    rw [hMc]
    rfl
  by_cases hP : v.Prerelease = "" <;> by_cases hB : v.Build = ""
  · have hdata : (Version.String v).data =
        natToDec v.Major ++ '.' :: (natToDec v.Minor ++ '.' ::
          (natToDec v.Patch ++ ([] : List Char))) := by
      simp [Version.String, hP, hB]
    rw [hdata]
    unfold ParseVersionL
    rw [hne, versionRegexMatch_render v.Major v.Minor v.Patch [] rfl]
    simp only [Bool.false_eq_true, if_false]
    simp only [atoi_natToDec hM, atoi_natToDec hmi, atoi_natToDec hp, optTagGroup,
      List.isEmpty_nil, if_true, Option.getD_none]
    nth_rewrite 1 [show String.mk [] = v.Prerelease from by rw [hP]]
    rw [show String.mk [] = v.Build from by rw [hB]]
  · have hBid : ∀ c ∈ v.Build.data, isIdentChar c = true := by
      rcases hbuild with hnil | ⟨_, hid⟩
      · exact absurd hnil (data_ne_nil_of_ne_empty hB)
      · exact hid
    have hBne : v.Build.data ≠ [] := data_ne_nil_of_ne_empty hB
    have hdata : (Version.String v).data =
        natToDec v.Major ++ '.' :: (natToDec v.Minor ++ '.' ::
          (natToDec v.Patch ++ '+' :: v.Build.data)) := by
      simp [Version.String, hP, hB]
    have hg1 : optTagGroup '-' ('+' :: v.Build.data) = (none, '+' :: v.Build.data) := by
      unfold optTagGroup
      dsimp only []
      rw [if_neg (by decide)]
    have hg2 : optTagGroup '+' ('+' :: v.Build.data) = (some v.Build.data, []) := by
      unfold optTagGroup
      dsimp only []
      rw [if_pos rfl, takeWhile_all hBid, isEmpty_false_of_ne_nil hBne]
      simp only [Bool.false_eq_true, if_false]
      rw [dropWhile_all hBid]
    rw [hdata]
    unfold ParseVersionL
    rw [hne, versionRegexMatch_render v.Major v.Minor v.Patch _
      (List.takeWhile_cons_of_neg (by decide))]
    simp only [Bool.false_eq_true, if_false, hg1, hg2]
    simp only [atoi_natToDec hM, atoi_natToDec hmi, atoi_natToDec hp,
      List.isEmpty_nil, if_true, Option.getD_none, Option.getD_some]
    rw [show String.mk [] = v.Prerelease from by rw [hP], string_mk_data]
  · have hPid : ∀ c ∈ v.Prerelease.data, isIdentChar c = true := by
      rcases hpre with hnil | ⟨_, hid⟩
      · exact absurd hnil (data_ne_nil_of_ne_empty hP)
      · exact hid
    have hPne : v.Prerelease.data ≠ [] := data_ne_nil_of_ne_empty hP
    have hdata : (Version.String v).data =
        natToDec v.Major ++ '.' :: (natToDec v.Minor ++ '.' ::
          (natToDec v.Patch ++ '-' :: v.Prerelease.data)) := by
      simp [Version.String, hP, hB]
    have hg1 : optTagGroup '-' ('-' :: v.Prerelease.data) =
        (some v.Prerelease.data, []) := by
      unfold optTagGroup
      dsimp only []
      rw [if_pos rfl, takeWhile_all hPid, isEmpty_false_of_ne_nil hPne]
      simp only [Bool.false_eq_true, if_false]
      rw [dropWhile_all hPid]
    rw [hdata]
    unfold ParseVersionL
    rw [hne, versionRegexMatch_render v.Major v.Minor v.Patch _
      (List.takeWhile_cons_of_neg (by decide))]
    simp only [Bool.false_eq_true, if_false, hg1]
    simp only [optTagGroup, List.isEmpty_nil, if_true, Option.getD_none, Option.getD_some,
      atoi_natToDec hM, atoi_natToDec hmi, atoi_natToDec hp]
    rw [string_mk_data, show String.mk [] = v.Build from by rw [hB]]
  · have hPid : ∀ c ∈ v.Prerelease.data, isIdentChar c = true := by
      rcases hpre with hnil | ⟨_, hid⟩
      · exact absurd hnil (data_ne_nil_of_ne_empty hP)
      · exact hid
    have hPne : v.Prerelease.data ≠ [] := data_ne_nil_of_ne_empty hP
    have hBid : ∀ c ∈ v.Build.data, isIdentChar c = true := by
      rcases hbuild with hnil | ⟨_, hid⟩
      · exact absurd hnil (data_ne_nil_of_ne_empty hB)
      · exact hid
    have hBne : v.Build.data ≠ [] := data_ne_nil_of_ne_empty hB
    have hdata : (Version.String v).data =
        natToDec v.Major ++ '.' :: (natToDec v.Minor ++ '.' ::
          (natToDec v.Patch ++ '-' :: (v.Prerelease.data ++ '+' :: v.Build.data))) := by
      simp [Version.String, hP, hB]
    have hseg := seg_split isIdentChar v.Prerelease.data ('+' :: v.Build.data) hPid
      (List.takeWhile_cons_of_neg (by decide))
    have hg1 : optTagGroup '-' ('-' :: (v.Prerelease.data ++ '+' :: v.Build.data)) =
        (some v.Prerelease.data, '+' :: v.Build.data) := by
      unfold optTagGroup
      dsimp only []
      rw [if_pos rfl, hseg.1, isEmpty_false_of_ne_nil hPne]
      simp only [Bool.false_eq_true, if_false]
      rw [hseg.2]
    have hg2 : optTagGroup '+' ('+' :: v.Build.data) = (some v.Build.data, []) := by
      unfold optTagGroup
      dsimp only []
      rw [if_pos rfl, takeWhile_all hBid, isEmpty_false_of_ne_nil hBne]
      simp only [Bool.false_eq_true, if_false]
      rw [dropWhile_all hBid]
    rw [hdata]
    unfold ParseVersionL
    rw [hne, versionRegexMatch_render v.Major v.Minor v.Patch _
      (List.takeWhile_cons_of_neg (by decide))]
    simp only [Bool.false_eq_true, if_false, hg1, hg2]
    simp only [List.isEmpty_nil, if_true, Option.getD_some,
      atoi_natToDec hM, atoi_natToDec hmi, atoi_natToDec hp]

/-- C7: round-trip idempotence: for every Version obtained from a successful
parse, rendering it with `String()` (MAJOR.MINOR.PATCH, then `-PRERELEASE`
if present, then `+BUILD` if present) and parsing again succeeds and yields
a Version comparing equal (indeed the very same Version). -/
theorem C7_roundtrip_idempotence :
    ∀ (s : String) (v : Version), ParseVersion s = .ok v →
      ParseVersion (Version.String v) = .ok v ∧ Version.Compare v v = 0 :=
  fun _ v h => ⟨parse_of_render v (parseVersionL_wf h), compare_self v⟩

/-- Witness for C7 at a concrete parsed version. -/
theorem C7_roundtrip_idempotence_witness :
    ParseVersion "v1.2-rc.1+b.7" = .ok ⟨1, 2, 0, "rc.1", "b.7"⟩ ∧
    ParseVersion (Version.String ⟨1, 2, 0, "rc.1", "b.7"⟩) = .ok ⟨1, 2, 0, "rc.1", "b.7"⟩ ∧
    Version.Compare ⟨1, 2, 0, "rc.1", "b.7"⟩ ⟨1, 2, 0, "rc.1", "b.7"⟩ = 0 :=
  ⟨by rfl, (C7_roundtrip_idempotence "v1.2-rc.1+b.7" ⟨1, 2, 0, "rc.1", "b.7"⟩ (by rfl)).1,
    (C7_roundtrip_idempotence "v1.2-rc.1+b.7" ⟨1, 2, 0, "rc.1", "b.7"⟩ (by rfl)).2⟩

theorem fieldsAux_all_space : ∀ (fuel : Nat) (l : List Char),
    (∀ c ∈ l, goIsSpace c = true) → fieldsAux fuel l = [] := by
  intro fuel
  induction fuel with
  | zero => intro l _; rfl
  | succ f ih =>
    intro l h
    cases l with
    | nil => rfl
    | cons c cs =>
      unfold fieldsAux
      dsimp only []
      rw [h c (by simp)]
      simp only [if_true]
      exact ih cs (fun c2 hc2 => h c2 (by simp [hc2]))

/-- C9: `ParseConstraints` rejects the literally empty string; otherwise it
splits the input into whitespace-separated tokens and parses each token
independently, all-or-nothing: the result is ok exactly when every token
parses, a success contains exactly the per-token parses in order (no partial
list), and a failure carries the first failing token's error, wrapped.
`SatisfiesAll` is the conjunction over the list, and is invariant under
permutation of the constraints. -/
theorem C9_constraint_list_semantics :
    (ParseConstraints "" = .error .emptyConstraintList) ∧
    (∀ s : String, s ≠ "" → ParseConstraints s = parseConstraintList (fields s.data)) ∧
    (∀ ts : List (List Char),
      exceptIsOk (parseConstraintList ts) =
        ts.all (fun t => exceptIsOk (ParseConstraintL t))) ∧
    (∀ (ts : List (List Char)) (cs : List Constraint),
      parseConstraintList ts = .ok cs →
      cs.length = ts.length ∧
        ∀ i (hi : i < ts.length) (hi2 : i < cs.length),
          ParseConstraintL (ts.get ⟨i, hi⟩) = .ok (cs.get ⟨i, hi2⟩)) ∧
    (∀ (ts : List (List Char)) (e : CError), parseConstraintList ts = .error e →
      ∃ pre t post e2, ts = pre ++ t :: post ∧
        (∀ u ∈ pre, exceptIsOk (ParseConstraintL u) = true) ∧
        ParseConstraintL t = .error e2 ∧
        e = .failedToParseConstraint ⟨t⟩ e2) ∧
    (∀ (v : Version) (cs : List Constraint),
      SatisfiesAll v cs = cs.all (fun c => c.IsSatisfiedBy v)) ∧
    (∀ (v : Version) (cs1 cs2 : List Constraint), cs1.Perm cs2 →
      SatisfiesAll v cs1 = SatisfiesAll v cs2) := by
  refine ⟨rfl, ?_, ?_, ?_, ?_, fun v cs => rfl, ?_⟩
  · intro s hs
    unfold ParseConstraints
    rw [if_neg hs]
  · intro ts
    induction ts with
    | nil => rfl
    | cons t ts ih =>
      unfold parseConstraintList
      cases h : ParseConstraintL t
      · simp [exceptIsOk, h]
      · cases h2 : parseConstraintList ts <;>
          simp_all [exceptIsOk]
  · intro ts
    induction ts with
    | nil =>
      intro cs h
      unfold parseConstraintList at h
      simp only [Except.ok.injEq] at h
      subst h
      exact ⟨rfl, fun i hi => absurd hi (by simp)⟩
    | cons t ts ih =>
      intro cs h
      unfold parseConstraintList at h
      cases h1 : ParseConstraintL t <;> rw [h1] at h
      · simp at h
      · cases h2 : parseConstraintList ts <;> rw [h2] at h
        · simp at h
        · simp only [Except.ok.injEq] at h
          subst h
          obtain ⟨hlen, hget⟩ := ih _ h2
          refine ⟨by simp [hlen], ?_⟩
          intro i hi hi2
          cases i with
          | zero => exact h1
          | succ j =>
            exact hget j (by simpa using hi) (by simpa using hi2)
  · intro ts
    induction ts with
    | nil =>
      intro e h
      unfold parseConstraintList at h
      simp at h
    | cons t ts ih =>
      intro e h
      unfold parseConstraintList at h
      cases h1 : ParseConstraintL t <;> rw [h1] at h
      · simp only [Except.error.injEq] at h
        exact ⟨[], t, ts, _, rfl, by simp, h1, h.symm⟩
      · cases h2 : parseConstraintList ts <;> rw [h2] at h
        · simp only [Except.error.injEq] at h
          obtain ⟨pre, t2, post, e2, hts, hpre3, ht2, he⟩ := ih _ h2
          refine ⟨t :: pre, t2, post, e2, by simp [hts], ?_, ht2, by rw [← h, he]⟩
          intro u hu
          rcases List.mem_cons.mp hu with hu | hu
          · subst hu
            simp [exceptIsOk, h1]
          · exact hpre3 u hu
        · simp at h
  · intro v cs1 cs2 h
    simp only [SatisfiesAll]
    rw [Bool.eq_iff_iff]
    simp only [List.all_eq_true]
    constructor
    · intro hl x hx
      exact hl x (h.mem_iff.mpr hx)
    · intro hl x hx
      exact hl x (h.mem_iff.mp hx)

/-- Witness for C9 at concrete inputs. -/
theorem C9_constraint_list_semantics_witness :
    ParseConstraints ">=1.22 <1.25" = parseConstraintList (fields ">=1.22 <1.25".data) ∧
    ((List.length [Constraint.mk .OpEqual ⟨1, 0, 0, "", ""⟩] = List.length [['1']]) ∧
      (∃ pre t post e2,
        [['?']] = pre ++ t :: post ∧
          (∀ u ∈ pre, exceptIsOk (ParseConstraintL u) = true) ∧
          ParseConstraintL t = .error e2 ∧
          CError.failedToParseConstraint "?" (.invalidVersionInConstraint .invalidFormat) =
            .failedToParseConstraint ⟨t⟩ e2)) ∧
    SatisfiesAll ⟨1, 0, 0, "", ""⟩ [] = SatisfiesAll ⟨1, 0, 0, "", ""⟩ [] :=
  ⟨C9_constraint_list_semantics.2.1 ">=1.22 <1.25" (by decide),
    ⟨(C9_constraint_list_semantics.2.2.2.1 [['1']] [⟨.OpEqual, ⟨1, 0, 0, "", ""⟩⟩]
        (by rfl)).1,
      C9_constraint_list_semantics.2.2.2.2.1 [['?']]
        (.failedToParseConstraint "?" (.invalidVersionInConstraint .invalidFormat)) (by rfl)⟩,
    C9_constraint_list_semantics.2.2.2.2.2.2 ⟨1, 0, 0, "", ""⟩ [] [] (List.Perm.refl _)⟩

/-- C10: a non-empty, whitespace-only requirement string yields an empty
constraint list and no error (only the literally empty string is rejected),
and `SatisfiesAll` of any version against the empty list is true, so such a
requirement accepts every version. -/
theorem C10_whitespace_only_accepts_all :
    ∀ s : String, s ≠ "" → (∀ c ∈ s.data, goIsSpace c = true) →
      ParseConstraints s = .ok [] ∧ ∀ v : Version, SatisfiesAll v [] = true := by
  intro s hs hsp
  refine ⟨?_, fun v => rfl⟩
  unfold ParseConstraints
  rw [if_neg hs]
  unfold fields
  rw [fieldsAux_all_space _ _ hsp]
  rfl

/-- Witness for C10 at the single-space string. -/
theorem C10_whitespace_only_accepts_all_witness :
    ParseConstraints " " = .ok [] ∧ SatisfiesAll ⟨1, 0, 0, "", ""⟩ [] = true :=
  ⟨(C10_whitespace_only_accepts_all " " (by decide) (by decide)).1,
    (C10_whitespace_only_accepts_all " " (by decide) (by decide)).2 ⟨1, 0, 0, "", ""⟩⟩
